import Mathlib

/-!
Verification of the ekpmeasure experiment-orchestration and analysis-pipeline code.

The development shallowly embeds the relevant parts of the repository:
  * `ekpy/control/core.py` — `experiment.n_param_scan` and `trial`,
  * `ekpy/utils/save.py` — `write_ekpy_data`, `read_ekpy_data`, `_parse_ekpy_meta_data`,
  * `ekpy/analysis/analysisgeotemp.py` — `use_analysis_file` (skip logic and
    pipeline loop) and `get_function_doc_append`.

Text is modelled as `List Char`.  Python dictionaries are modelled as
association lists together with an update operation that mirrors Python's
in-place `dict.update` (replace the value of an existing key, else append).
Python exceptions are modelled with `Option`/error sums.
-/

set_option maxHeartbeats 1000000
set_option synthInstance.maxHeartbeats 1000000

abbrev Str : Type := List Char

/-! ## Python-like text primitives -/

/-- Boolean test that `p` is an initial segment of `s` (used for substring search,
mirroring how Python's `str.find`/`in` locate a pattern). -/
def leadsWith : Str → Str → Bool
  | [], _ => true
  | _ :: _, [] => false
  | p :: ps, c :: cs => decide (p = c) && leadsWith ps cs

/-- Index of the first occurrence of `pat` in `s` (Python `str.find`, successful case). -/
def findSubNat? (pat : Str) : Str → Option Nat
  | [] => if leadsWith pat [] then some 0 else none
  | c :: rest =>
    if leadsWith pat (c :: rest) then some 0
    else (findSubNat? pat rest).map (· + 1)

/-- Python's substring containment test `pat in s`. -/
def containsSub (s pat : Str) : Bool := (findSubNat? pat s).isSome

/-- Python `str.find`: first index of `pat` in `s`, or `-1`. -/
def pyFind (s pat : Str) : Int :=
  match findSubNat? pat s with
  | some i => (i : Int)
  | none => -1

/-- Python `str.isspace` characters relevant to `str.strip()`. -/
def pyIsSpace (c : Char) : Bool :=
  c == ' ' || c == '\t' || c == '\n' || c == '\r' || c == '\x0b' || c == '\x0c'

/-- Python `str.strip()`. -/
def pyStrip (s : Str) : Str :=
  ((s.dropWhile pyIsSpace).reverse.dropWhile pyIsSpace).reverse

/-- Python slice `s[a:b]` for a nonnegative start `a` and an integer stop `b`
(as produced by arithmetic on a `find` result): empty when `b ≤ a`. -/
def pySliceInt (s : Str) (a : Nat) (b : Int) : Str :=
  if b ≤ (a : Int) then [] else (s.drop a).take (b.toNat - a)

/-- Split on a single character, Python `str.split(sep)` (no collapsing). -/
def splitOnChar (sep : Char) : Str → List Str
  | [] => [[]]
  | c :: cs =>
    if c = sep then [] :: splitOnChar sep cs
    else
      match splitOnChar sep cs with
      | [] => [[c]]
      | p :: ps => (c :: p) :: ps

/-- Join with a single separator character (inverse of `splitOnChar` on
separator-free pieces). -/
def joinChar (sep : Char) : List Str → Str
  | [] => []
  | [x] => x
  | x :: y :: rest => x ++ sep :: joinChar sep (y :: rest)

/-- Python `file.readlines()` with the newline terminators stripped:
split the stream on a line feed, discarding the empty trailing piece that a
final terminator produces. -/
def splitLinesPy (s : Str) : List Str :=
  let ps := splitOnChar '\n' s
  match ps.getLast? with
  | some [] => ps.dropLast
  | _ => ps

/-- Fuel-driven worker for Python `str.split(sep)` with a multi-character
separator; each step consumes at least one character, so `length + 1` fuel
always suffices. -/
def splitOnSubF (pat : Str) : Nat → Str → List Str
  | 0, s => [s]
  | n + 1, s =>
    match findSubNat? pat s with
    | none => [s]
    | some i => s.take i :: splitOnSubF pat n (s.drop (i + pat.length))

/-- Python `str.split(sep)` for a nonempty separator string. -/
def splitOnSub (s pat : Str) : List Str := splitOnSubF pat (s.length + 1) s

/-! ## Python dictionaries as association lists -/

/-- First-match association-list lookup (Python `d[k]` / `d.get(k)`). -/
def alookup {α : Type} (k : Str) : List (Str × α) → Option α
  | [] => none
  | (k', v) :: rest => if k = k' then some v else alookup k rest

/-- Python's in-place `d.update({k: v})` on an insertion-ordered dictionary:
replace the value of an existing key at its position, otherwise append the new
pair at the end.  (Python dictionaries cannot hold a key twice, so replacing
the first occurrence is exact.) -/
def dictUpdate {α : Type} : List (Str × α) → Str → α → List (Str × α)
  | [], k, v => [(k, v)]
  | (k', v') :: rest, k, v =>
    if k' = k then (k, v) :: rest else (k', v') :: dictUpdate rest k v

/-- Boolean list membership for keys. -/
def memB (x : Str) : List Str → Bool
  | [] => false
  | y :: rest => decide (x = y) || memB x rest

/-- Python `set(a) == set(b)` for key collections. -/
def setEqL (a b : List Str) : Bool :=
  a.all (fun x => memB x b) && b.all (fun x => memB x a)

/-! ## itertools.product -/

/-- All tuples of `ts` extended on the left by an element of the first list;
building block of `pyProduct`. -/
def prodCons {α : Type} : List α → List (List α) → List (List α)
  | [], _ => []
  | x :: xs, ts => ts.map (fun t => x :: t) ++ prodCons xs ts

/-- `itertools.product(*lists)`: the Cartesian product in which the last listed
iterable varies fastest. -/
def pyProduct {α : Type} : List (List α) → List (List α)
  | [] => [[]]
  | l :: ls => prodCons l (pyProduct ls)

/-! ## The sweep orchestrator: `experiment.n_param_scan`

`n_param_scan(kw_scan_params, fixed_params, scan_param_order, ntrials)` checks
that the key set of `scan_param_order` equals that of `kw_scan_params`
(raising `KeyError` before the `try` block otherwise), then enumerates
`itertools.product(*(kw_scan_params[key] for key in scan_param_order[::-1]))`,
and for each tuple updates the dictionary `kwargs = fixed_params` *in place*
with the scanned values before invoking `trial` `ntrials` times.  The whole
loop sits in a `try` whose `except` re-raises and whose `finally` invokes
`self.terminate()`.

The embedding threads the mutated `fixed_params` dictionary explicitly, records
the keyword dictionary passed to every `trial` invocation, an event trace
(trial calls and `terminate` calls), and the propagated exception, if any.
A trial is a function that either succeeds or raises an error `ε`. -/

inductive SweepEv where
  | trialCall
  | termCall
deriving DecidableEq

inductive SweepErr (ε : Type) where
  | config
  | fromTrial (e : ε)
deriving DecidableEq

structure ScanResult (V ε : Type) where
  calls : List (List V × List (Str × V))
  finalFixed : List (Str × V)
  events : List SweepEv
  outcome : Option (SweepErr ε)
deriving DecidableEq

/-- One combination applied to the (mutated) keyword dictionary:
`for i, key in enumerate(scan_param_order[::-1]): kwargs.update({key: params[i]})`. -/
def applyCombo {V : Type} (d : List (Str × V)) (rev : List Str) (t : List V) :
    List (Str × V) :=
  (rev.zip t).foldl (fun d' p => dictUpdate d' p.1 p.2) d

/-- The inner `for count in range(ntrials)` loop: invoke the trial with the
current keyword dictionary until it raises. Returns the recorded calls
(each paired with the current combination tuple) and the first error. -/
def runTrials {V ε : Type} (trialF : List (Str × V) → Option ε)
    (d : List (Str × V)) (t : List V) :
    Nat → List (List V × List (Str × V)) × Option ε
  | 0 => ([], none)
  | n + 1 =>
    match trialF d with
    | some e => ([(t, d)], some e)
    | none =>
      let r := runTrials trialF d t n
      ((t, d) :: r.1, r.2)

/-- The outer `for params in iterable_param_list` loop, threading the mutated
keyword dictionary. Returns recorded calls, the dictionary state when the loop
stops, and the first error. -/
def runCombos {V ε : Type} (trialF : List (Str × V) → Option ε) (rev : List Str)
    (ntrials : Nat) :
    List (Str × V) → List (List V) →
      List (List V × List (Str × V)) × List (Str × V) × Option ε
  | d, [] => ([], d, none)
  | d, t :: ts =>
    let d' := applyCombo d rev t
    let r := runTrials trialF d' t ntrials
    match r.2 with
    | some e => (r.1, d', some e)
    | none =>
      let rest := runCombos trialF rev ntrials d' ts
      (r.1 ++ rest.1, rest.2.1, rest.2.2)

/-- `experiment.n_param_scan`.  A failing key-set precondition raises before
the `try` block, so no `terminate` event is recorded; otherwise the sweep body
runs and the `finally` clause records exactly one `terminate` event after the
last trial, whether or not a trial raised. -/
def n_param_scan {V ε : Type} (kw : List (Str × List V)) (fixed : List (Str × V))
    (order : List Str) (ntrials : Nat) (trialF : List (Str × V) → Option ε) :
    ScanResult V ε :=
  if setEqL order (kw.map Prod.fst) then
    let rev := order.reverse
    let combos := pyProduct (rev.map (fun k => (alookup k kw).getD []))
    let r := runCombos trialF rev ntrials fixed combos
    { calls := r.1
      finalFixed := r.2.1
      events := r.1.map (fun _ => SweepEv.trialCall) ++ [SweepEv.termCall]
      outcome := r.2.2.map SweepErr.fromTrial }
  else
    { calls := [], finalFixed := fixed, events := [], outcome := some SweepErr.config }

/-- The trial-call sequence of an error-free sweep: `ntrials` calls per
combination, each with the threaded dictionary after that combination's
update. -/
def callsOf {V : Type} (rev : List Str) (ntrials : Nat) :
    List (Str × V) → List (List V) → List (List V × List (Str × V))
  | _, [] => []
  | d, t :: ts =>
    List.replicate ntrials (t, applyCombo d rev t) ++
      callsOf rev ntrials (applyCombo d rev t) ts

/-! ## The trial recorder: `trial` (metadata-index part)

`trial(run_function, run_function_args, path)` obtains
`(base_name, meta_data, df)` from the run function, derives `save_name`,
augments `meta_data` with the trial number and file name, writes the data file
at `path+save_name` (falling back to a plain `to_csv` dump if the structured
writer raises — either way the file is created), then reads `meta_data.csv`:
if it exists and its column set differs from the new row's key set it raises a
`ValueError` whose message names `path+save_name`, without touching the index;
otherwise it appends the row.  The derived `save_name`, the trial number and
the rendered row values are parameters of the embedding. -/

structure IndexFile where
  cols : List Str
  rows : List (List Str)
deriving DecidableEq

inductive TrialErr where
  | colsMismatch (conflictFile : Str)
deriving DecidableEq

structure TrialFS where
  dataFile : Option Str
  metaCsv : Option IndexFile
deriving DecidableEq

/-- The persistence step of `trial`: write the data file, then update the
`meta_data.csv` index, rejecting a row whose column set differs from the
existing index. -/
def trialRecord (path saveName : Str) (metaData : List (Str × Str))
    (trialNum : Str) (fs : TrialFS) : TrialFS × Option TrialErr :=
  let row := dictUpdate (dictUpdate metaData ("trial".data) trialNum)
    ("filename".data) saveName
  let fs1 : TrialFS := { fs with dataFile := some (path ++ saveName) }
  match fs1.metaCsv with
  | none =>
    ({ fs1 with metaCsv := some ⟨row.map Prod.fst, [row.map Prod.snd]⟩ }, none)
  | some idx =>
    if setEqL (row.map Prod.fst) idx.cols then
      ({ fs1 with
          metaCsv := some ⟨idx.cols,
            idx.rows ++ [idx.cols.map (fun c => (alookup c row).getD [])]⟩ }, none)
    else
      (fs1, some (TrialErr.colsMismatch (path ++ saveName)))

/-! ## `ekpy/utils/save.py`: `write_ekpy_data` / `read_ekpy_data`

A data file is a character stream.  The writer emits the line
`ekpy_heading`, one `key:::value` line per metadata entry, the line
`ekpy_heading_complete`, and then the comma-separated table (header row of
column names followed by the rows), each line terminated by a line feed.

The reader splits the stream into lines, scans them exactly as the Python
loop does (recording the index of the *last* line containing
`ekpy_heading_complete`, and breaking immediately if the very first line does
not contain `ekpy_heading`), and either falls back to a plain CSV parse, or
raises, or parses the region after the heading as CSV and the heading as
metadata.  Tables are modelled with string-typed cells (the pandas interface
level). -/

structure Table where
  cols : List Str
  rows : List (List Str)
deriving DecidableEq

/-- `pandas.DataFrame.to_csv(index=False)` as a list of lines. -/
def tableToCsvLines (t : Table) : List Str :=
  joinChar ',' t.cols :: t.rows.map (fun r => joinChar ',' r)

/-- `write_ekpy_data(fname, data, meta_data)`: rendered file contents. -/
def write_ekpy_data (data : Table) (metaData : List (Str × Str)) : Str :=
  let headerLines :=
    "ekpy_heading".data ::
      (metaData.map (fun kv => kv.1 ++ ":::".data ++ kv.2) ++
        ["ekpy_heading_complete".data])
  let allLines := headerLines ++ tableToCsvLines data
  allLines.foldr (fun l acc => l ++ '\n' :: acc) []

inductive ReadErr where
  | noHeaderEnd
  | emptyData
  | indexErr
deriving DecidableEq

instance exceptDecEq {ε α : Type} [DecidableEq ε] [DecidableEq α] :
    DecidableEq (Except ε α) := fun a b =>
  match a, b with
  | Except.ok x, Except.ok y =>
    if h : x = y then Decidable.isTrue (by rw [h])
    else Decidable.isFalse (by intro hc; cases hc; exact h rfl)
  | Except.ok _, Except.error _ => Decidable.isFalse (by intro hc; cases hc)
  | Except.error _, Except.ok _ => Decidable.isFalse (by intro hc; cases hc)
  | Except.error e, Except.error f =>
    if h : e = f then Decidable.isTrue (by rw [h])
    else Decidable.isFalse (by intro hc; cases hc; exact h rfl)

/-- `pandas.read_csv` at the interface level: skip blank lines, first remaining
line is the header row, the rest are data rows; raises on an empty input. -/
def readCsvLines (ls : List Str) : Except ReadErr Table :=
  match ls.filter (fun l => !l.isEmpty) with
  | [] => Except.error ReadErr.emptyData
  | h :: t => Except.ok ⟨splitOnChar ',' h, t.map (fun r => splitOnChar ',' r)⟩

/-- The index-scanning loop of `read_ekpy_data`: `index` starts at
`len(lines)+1`; the loop breaks at once if line 0 lacks `ekpy_heading`, and
otherwise records the index of every line containing `ekpy_heading_complete`
(the last one wins). -/
def scanIndexAux : Nat → Nat → List Str → Nat
  | idx, _, [] => idx
  | idx, i, l :: rest =>
    if i = 0 && !containsSub l ("ekpy_heading".data) then idx
    else
      scanIndexAux (if containsSub l ("ekpy_heading_complete".data) then i else idx)
        (i + 1) rest

def scanIndex (lines : List Str) : Nat := scanIndexAux (lines.length + 1) 0 lines

/-- `_parse_ekpy_meta_data(lines)`: build the metadata dictionary from the
heading block; a `key:::value` line lacking `:::` would raise `IndexError`. -/
def parseMetaAux : List (Str × Str) → List Str → Except ReadErr (List (Str × Str))
  | acc, [] => Except.ok acc
  | acc, l :: rest =>
    if containsSub l ("ekpy_heading_complete".data) then Except.ok acc
    else if containsSub l ("ekpy_heading".data) then parseMetaAux acc rest
    else if l = [] || l = ['\r'] then parseMetaAux acc rest
    else
      let cleaned := (l.filter (fun c => c != '\n')).filter (fun c => c != '\r')
      let spl := splitOnSub cleaned (":::".data)
      match spl.get? 0, spl.get? 1 with
      | some k, some v => parseMetaAux (dictUpdate acc k v) rest
      | _, _ => Except.error ReadErr.indexErr

def parse_ekpy_meta_data (lines : List Str) : Except ReadErr (List (Str × Str)) :=
  parseMetaAux [] lines

/-- `read_ekpy_data(file, return_meta_data)`. -/
def read_ekpy_data (s : Str) (returnMetaData : Bool) :
    Except ReadErr (Table × Option (List (Str × Str))) :=
  let lines := splitLinesPy s
  let index := scanIndex lines
  if lines.length < index then
    if returnMetaData then Except.error ReadErr.noHeaderEnd
    else
      match readCsvLines lines with
      | Except.error e => Except.error e
      | Except.ok t => Except.ok (t, none)
  else
    match readCsvLines (lines.drop (index + 1)) with
    | Except.error e => Except.error e
    | Except.ok t =>
      if returnMetaData then
        match parse_ekpy_meta_data lines with
        | Except.error e => Except.error e
        | Except.ok md => Except.ok (t, some md)
      else Except.ok (t, none)

/-! ## `use_analysis_file`: skip-list handling and the pipeline loop

The skip handling reads:

```
if skip_func is not list:
    t = []
    t.append(skip_func)
    skip_func = t
for func in skip_func:
    try:
        functions_list.remove(func)
    except ValueError:
        print(f'Did not skip as skip_func: {func} does not exist, ...')
```

`skip_func is not list` compares the *value* with the builtin type object
`list`, which is true for every string and for every list value a caller can
pass, so the argument is always wrapped in a singleton list.  A caller-supplied
list therefore becomes the single element iterated over, and
`functions_list.remove` (equality-based removal from a list of strings) then
always raises `ValueError` for it.  The embedding represents the possible
argument values and mirrors this control flow. -/

inductive SkipArg where
  | ofStr (s : Str)
  | ofList (l : List Str)
deriving DecidableEq

/-- Python `list.remove` for the first string equal to `x`. -/
def eraseFirst (x : Str) : List Str → List Str
  | [] => []
  | y :: rest => if y = x then rest else y :: eraseFirst x rest

/-- The `for func in skip_func` loop: returns the pruned function list and the
skip values that produced a `Did not skip ...` warning. -/
def applySkips : List Str → List SkipArg → List Str × List SkipArg
  | fl, [] => (fl, [])
  | fl, f :: rest =>
    match f with
    | SkipArg.ofStr s =>
      if memB s fl then applySkips (eraseFirst s fl) rest
      else
        let r := applySkips fl rest
        (r.1, f :: r.2)
    | SkipArg.ofList _ =>
      let r := applySkips fl rest
      (r.1, f :: r.2)

/-- The skip handling of `use_analysis_file`: compute the list of transforms
that will actually be applied, and the warnings emitted.  The
`skip_func is not list` test holds for every value modelled here, so the
argument is always wrapped in a singleton list first. -/
def computeFunctionsList (allFuncs : List Str) (skip : Option SkipArg) :
    List Str × List SkipArg :=
  match skip with
  | none => (allFuncs, [])
  | some sf => applySkips allFuncs [sf]

/-! The pipeline loop.  `data.apply(func, ...)` lives in `ekpy/analysis/core.py`,
which is not part of the sources; per the specified transform contract a
transform returns a modified data object or an empty result (`None`) to signal
a skip. -/

/-- Modelled from the spec: `Data.apply` (defined in `ekpy/analysis/core.py`,
which is absent from the sources) applies a transform to the data object and
returns the modified object, or an empty result (`None`) to signal a skip. -/
def dataApply {D : Type} (f : D → Option D) (d : D) : Option D := f d

/-- `get_function_doc_append` tag constants. -/
def tagMODIFIES : Str := "MODIFIES:".data

def tagPLOT : Str := "PLOT_AGAINST:".data

def tagSKIP : Str := "SKIP_PLOT".data

/-- The `MODIFIES:` component of `get_function_doc_append`: everything after
the first occurrence of the tag, to the end of the docstring, stripped. -/
def modifiesComponent (doc : Str) : Option Str :=
  match findSubNat? tagMODIFIES doc with
  | none => none
  | some i => some (pyStrip (doc.drop (i + tagMODIFIES.length)))

/-- The `PLOT_AGAINST:` component of `get_function_doc_append`, mirroring
`doc_string[start : start + doc_string[start:].find('\n')].strip()` with
Python slicing semantics (`find` returns `-1` when no newline follows). -/
def plotComponent (doc : Str) : Option Str :=
  match findSubNat? tagPLOT doc with
  | none => none
  | some i =>
    some (pyStrip (pySliceInt doc (i + tagPLOT.length)
      (((i + tagPLOT.length : Nat) : Int) + pyFind (doc.drop (i + tagPLOT.length)) ['\n'])))

/-- `get_function_doc_append(doc_string)`: the `MODIFIES:` payload, the
`PLOT_AGAINST:` payload, and the `SKIP_PLOT` flag. -/
def get_function_doc_append (doc : Str) : Option Str × Option Str × Bool :=
  (modifiesComponent doc, plotComponent doc, containsSub doc tagSKIP)

/-- The corrected reading of the `PLOT_AGAINST:` component, phrased from the
(amended) specification: the text after the tag up to (excluding) the next
newline, stripped — and the *empty string* when no newline follows the tag. -/
def plotComponentAmended (doc : Str) : Option Str :=
  match findSubNat? tagPLOT doc with
  | none => none
  | some i =>
    if '\n' ∈ doc.drop (i + tagPLOT.length) then
      some (pyStrip ((doc.drop (i + tagPLOT.length)).takeWhile (fun c => decide (c ≠ '\n'))))
    else some []

/-- The amended specification of `get_function_doc_append`. -/
def doc_append_amended (doc : Str) : Option Str × Option Str × Bool :=
  (modifiesComponent doc, plotComponentAmended doc, containsSub doc tagSKIP)

/-- The per-step state of the `use_analysis_file` loop: the current data
object, the `data_saver` snapshots (keyed by the numeric part of `data{i+1}`),
and the three provenance lists. -/
structure PipeSt (D : Type) where
  data : D
  saver : List (Nat × D)
  funcs_modified : List (Option Str)
  plotted_against_list : List (Option Str)
  skip_plot_list : List Bool
deriving DecidableEq

def pipeInit {D : Type} (d0 : D) : PipeSt D :=
  ⟨d0, [(0, d0)], [some ("original".data)], [none], [false]⟩

/-- One iteration of `for i, name in enumerate(functions_list)`: an entry is
the enumerated index, the transform (already `getattr`-resolved), and its
docstring.  A `None` result from the transform is `continue`d over. -/
def pipeStep {D : Type} (st : PipeSt D) (e : Nat × (D → Option D) × Str) :
    PipeSt D :=
  match dataApply e.2.1 st.data with
  | none => st
  | some res =>
    let doc := get_function_doc_append e.2.2
    { data := res
      saver := st.saver ++ [(e.1 + 1, res)]
      funcs_modified := st.funcs_modified ++ [doc.1]
      plotted_against_list := st.plotted_against_list ++ [doc.2.1]
      skip_plot_list := st.skip_plot_list ++ [doc.2.2] }

/-- The whole transform loop of `use_analysis_file`. -/
def pipeFold {D : Type} (st : PipeSt D) (es : List (Nat × (D → Option D) × Str)) :
    PipeSt D :=
  es.foldl pipeStep st

/-! ## Lemmas: membership and association lists -/

theorem memB_iff (x : Str) (l : List Str) : memB x l = true ↔ x ∈ l := by
  induction l with
  | nil => simp [memB]
  | cons y rest ih => simp [memB, ih, List.mem_cons]

theorem alookup_eq_none_iff {α : Type} (k : Str) (l : List (Str × α)) :
    alookup k l = none ↔ k ∉ l.map Prod.fst := by
  induction l with
  | nil => simp [alookup]
  | cons p rest ih =>
    obtain ⟨k', v⟩ := p
    by_cases h : k = k'
    · subst h
      simp [alookup]
    · simp only [alookup, if_neg h, List.map_cons, List.mem_cons, not_or, ih]
      constructor
      · intro hn
        exact ⟨h, hn⟩
      · intro hn
        exact hn.2

theorem alookup_mem_nodup {α : Type} {l : List (Str × α)}
    (hn : (l.map Prod.fst).Nodup) {p : Str × α} (hp : p ∈ l) :
    alookup p.1 l = some p.2 := by
  induction l with
  | nil => cases hp
  | cons q rest ih =>
    obtain ⟨k', v⟩ := q
    simp only [List.map_cons, List.nodup_cons] at hn
    rcases List.mem_cons.mp hp with h | h
    · subst h
      simp [alookup]
    · have hk : p.1 ≠ k' := by
        intro he
        exact hn.1 (List.mem_map.mpr ⟨p, h, he⟩)
      simp only [alookup, if_neg hk]
      exact ih hn.2 h

theorem alookup_dictUpdate {α : Type} (d : List (Str × α)) (k k' : Str) (v : α) :
    alookup k (dictUpdate d k' v) = if k = k' then some v else alookup k d := by
  induction d with
  | nil =>
    by_cases hk : k = k' <;> simp [dictUpdate, alookup, hk]
  | cons q rest ih =>
    obtain ⟨a, b⟩ := q
    by_cases ha : a = k'
    · subst ha
      by_cases hk : k = a <;> simp [dictUpdate, alookup, hk]
    · by_cases hk : k = a
      · subst hk
        simp [dictUpdate, if_neg ha, alookup]
      · simp only [dictUpdate, if_neg ha, alookup, if_neg hk]
        exact ih

/-- The keys of `dictUpdate d k v` are the keys of `d` with `k` appended when absent. -/
theorem map_fst_dictUpdate {α : Type} (d : List (Str × α)) (k : Str) (v : α) :
    (dictUpdate d k v).map Prod.fst =
      if k ∈ d.map Prod.fst then d.map Prod.fst else d.map Prod.fst ++ [k] := by
  induction d with
  | nil => simp [dictUpdate]
  | cons q rest ih =>
    obtain ⟨a, b⟩ := q
    by_cases ha : a = k
    · subst ha
      simp [dictUpdate]
    · have hka : ¬ k = a := fun h => ha h.symm
      simp only [dictUpdate, if_neg ha, List.map_cons, List.mem_cons, ih]
      by_cases hm : k ∈ rest.map Prod.fst
      · simp [hm, hka]
      · simp [hm, hka]

/-- When `k` is absent from `d`, `dictUpdate` appends. -/
theorem dictUpdate_append {α : Type} (d : List (Str × α)) (k : Str) (v : α)
    (h : k ∉ d.map Prod.fst) : dictUpdate d k v = d ++ [(k, v)] := by
  induction d with
  | nil => rfl
  | cons q rest ih =>
    obtain ⟨a, b⟩ := q
    simp only [List.map_cons, List.mem_cons, not_or] at h
    have ha : a ≠ k := fun he => h.1 he.symm
    simp only [dictUpdate, if_neg ha, List.cons_append]
    rw [ih h.2]

/-- Folding a list of updates whose keys are distinct: a lookup hits the value
written by the update list when present, and falls through to the original
dictionary otherwise. -/
theorem alookup_updAll {α : Type} (l : List (Str × α))
    (hn : (l.map Prod.fst).Nodup) :
    ∀ (d : List (Str × α)) (k : Str),
      alookup k (l.foldl (fun d' p => dictUpdate d' p.1 p.2) d) =
        match alookup k l with
        | some v => some v
        | none => alookup k d := by
  induction l with
  | nil =>
    intro d k
    simp [alookup]
  | cons p rest ih =>
    obtain ⟨a, b⟩ := p
    simp only [List.map_cons, List.nodup_cons] at hn
    intro d k
    simp only [List.foldl_cons]
    rw [ih hn.2]
    by_cases hk : k = a
    · subst hk
      have hnone : alookup k rest = none :=
        (alookup_eq_none_iff k rest).mpr hn.1
      rw [hnone]
      simp [alookup, alookup_dictUpdate]
    · simp only [alookup, if_neg hk]
      cases halt : alookup k rest with
      | some v => rfl
      | none =>
        simp only [alookup_dictUpdate, if_neg hk]

/-- Lookup in a zipped combination: `none` exactly for keys outside the scan order. -/
theorem alookup_zip_none_iff {V : Type} (rev : List Str) (t : List V)
    (hlen : rev.length ≤ t.length) (k : Str) :
    alookup k (rev.zip t) = none ↔ k ∉ rev := by
  rw [alookup_eq_none_iff, List.map_fst_zip rev t hlen]

/-- `applyCombo` looks up scanned keys in the combination and falls through to
the previous dictionary for all other keys. -/
theorem alookup_applyCombo {V : Type} (rev : List Str) (t : List V)
    (hn : rev.Nodup) (hlen : rev.length ≤ t.length)
    (d : List (Str × V)) (k : Str) :
    alookup k (applyCombo d rev t) =
      match alookup k (rev.zip t) with
      | some v => some v
      | none => alookup k d := by
  have hfst : (rev.zip t).map Prod.fst = rev := List.map_fst_zip rev t hlen
  have hn' : ((rev.zip t).map Prod.fst).Nodup := by rw [hfst]; exact hn
  exact alookup_updAll (rev.zip t) hn' d k

theorem zip_map_self {α : Type} (g : Str → α) :
    ∀ (l : List Str), l.zip (l.map g) = l.map (fun k => (k, g k)) := by
  intro l
  induction l with
  | nil => rfl
  | cons x rest ih => simp [List.zip_cons_cons, ih]

theorem alookup_map_pair {α : Type} (g : Str → α) (l : List Str) (k : Str)
    (hk : k ∈ l) :
    alookup k (l.map (fun x => (x, g x))) = some (g k) := by
  induction l with
  | nil => cases hk
  | cons x rest ih =>
    rcases List.mem_cons.mp hk with h | h
    · subst h
      simp [alookup]
    · by_cases hx : k = x
      · subst hx
        simp [alookup]
      · simp only [List.map_cons, alookup, if_neg hx]
        exact ih h

/-- A permutation of key lists passes the Python `set(a) == set(b)` test. -/
theorem setEqL_of_perm (a b : List Str) (h : a.Perm b) : setEqL a b = true := by
  simp only [setEqL, Bool.and_eq_true, List.all_eq_true, memB_iff]
  exact ⟨fun x hx => h.mem_iff.mp hx, fun x hx => h.mem_iff.mpr hx⟩

/-- Folding updates with fresh, distinct keys appends them in order. -/
theorem foldl_dictUpdate_fresh {α : Type} (l : List (Str × α))
    (hn : (l.map Prod.fst).Nodup) :
    ∀ acc, (∀ p ∈ l, p.1 ∉ acc.map Prod.fst) →
      l.foldl (fun a p => dictUpdate a p.1 p.2) acc = acc ++ l := by
  induction l with
  | nil =>
    intro acc _
    simp
  | cons p rest ih =>
    obtain ⟨a, b⟩ := p
    simp only [List.map_cons, List.nodup_cons] at hn
    intro acc hfresh
    simp only [List.foldl_cons]
    have hupd : dictUpdate acc a b = acc ++ [(a, b)] :=
      dictUpdate_append acc a b (hfresh (a, b) (by simp))
    rw [hupd, ih hn.2 (acc ++ [(a, b)]) ?fresh]
    · simp
    · intro p hp
      simp only [List.map_append, List.mem_append, not_or]
      constructor
      · exact hfresh p (by simp [hp])
      · intro hmem
        simp only [List.map_cons, List.map_nil, List.mem_singleton] at hmem
        exact hn.1 (hmem ▸ List.mem_map.mpr ⟨p, hp, rfl⟩)

/-! ## Lemmas: the Cartesian product -/

theorem prodCons_length {α : Type} (l : List α) (ts : List (List α)) :
    (prodCons l ts).length = l.length * ts.length := by
  induction l with
  | nil => simp [prodCons]
  | cons x xs ih =>
    simp only [prodCons, List.length_append, List.length_map, ih, List.length_cons]
    ring

theorem pyProduct_length {α : Type} (ls : List (List α)) :
    (pyProduct ls).length = (ls.map List.length).prod := by
  induction ls with
  | nil => simp [pyProduct]
  | cons l ls ih => simp [pyProduct, prodCons_length, ih]

theorem mem_prodCons {α : Type} {l : List α} {ts : List (List α)} {t : List α}
    (h : t ∈ prodCons l ts) : ∃ x ∈ l, ∃ t' ∈ ts, t = x :: t' := by
  induction l with
  | nil => cases h
  | cons x xs ih =>
    simp only [prodCons, List.mem_append, List.mem_map] at h
    rcases h with ⟨t', ht', rfl⟩ | h
    · exact ⟨x, by simp, t', ht', rfl⟩
    · obtain ⟨y, hy, t', ht', rfl⟩ := ih h
      exact ⟨y, by simp [hy], t', ht', rfl⟩

theorem pyProduct_mem_length {α : Type} {ls : List (List α)} {t : List α}
    (h : t ∈ pyProduct ls) : t.length = ls.length := by
  induction ls generalizing t with
  | nil =>
    simp only [pyProduct, List.mem_singleton] at h
    simp [h]
  | cons l ls ih =>
    obtain ⟨x, _, t', ht', rfl⟩ := mem_prodCons h
    simp [ih ht']

theorem pyProduct_ne_nil {α : Type} {ls : List (List α)}
    (h : ∀ l ∈ ls, l ≠ []) : pyProduct ls ≠ [] := by
  intro hnil
  have hlen := pyProduct_length ls
  rw [hnil] at hlen
  have : ∀ n ∈ ls.map List.length, 0 < n := by
    intro n hn
    obtain ⟨l, hl, rfl⟩ := List.mem_map.mp hn
    exact List.length_pos.mpr (h l hl)
  have hpos : 0 < (ls.map List.length).prod := List.prod_pos this
  rw [← hlen] at hpos
  simp at hpos

theorem prodCons_ne_nil {α : Type} {l : List α} {ts : List (List α)}
    (hl : l ≠ []) (hts : ts ≠ []) : prodCons l ts ≠ [] := by
  cases l with
  | nil => exact absurd rfl hl
  | cons x xs =>
    simp only [prodCons, ne_eq, List.append_eq_nil, List.map_eq_nil_iff, not_and]
    intro hmap
    exact absurd hmap hts

theorem getLast?_prodCons {α : Type} (v₀ : α) (l : List α) (ts : List (List α))
    (hl : l ≠ []) (hts : ts ≠ []) :
    (prodCons l ts).getLast? = ts.getLast?.map (fun t => l.getLastD v₀ :: t) := by
  induction l with
  | nil => exact absurd rfl hl
  | cons x xs ih =>
    cases hxs : xs with
    | nil =>
      simp only [prodCons, List.append_nil, List.getLastD]
      rw [List.getLast?_map]
      cases ts with
      | nil => exact absurd rfl hts
      | cons a b =>
        simp [List.getLastD_eq_getLast?]
    | cons y ys =>
      rw [← hxs]
      have hxs' : xs ≠ [] := by simp [hxs]
      simp only [prodCons]
      rw [List.getLast?_append, ih hxs']
      cases hts' : ts.getLast? with
      | none =>
        have hs : ts.getLast?.isSome = true := by
          rw [List.getLast?_isSome]
          exact hts
        rw [hts'] at hs
        simp at hs
      | some t =>
        simp [hxs, List.getLast?_cons_cons]

theorem pyProduct_getLast? {α : Type} (v₀ : α) (ls : List (List α))
    (h : ∀ l ∈ ls, l ≠ []) :
    (pyProduct ls).getLast? = some (ls.map (fun l => l.getLastD v₀)) := by
  induction ls with
  | nil => rfl
  | cons l ls ih =>
    have hl : l ≠ [] := h l (by simp)
    have hrest : ∀ x ∈ ls, x ≠ [] := fun x hx => h x (by simp [hx])
    have hts : pyProduct ls ≠ [] := pyProduct_ne_nil hrest
    simp only [pyProduct]
    rw [getLast?_prodCons v₀ l (pyProduct ls) hl hts, ih hrest]
    simp

/-! ## Lemmas: the sweep loops -/

theorem runTrials_total {V ε : Type} (trialF : List (Str × V) → Option ε)
    (d : List (Str × V)) (t : List V) (h : trialF d = none) :
    ∀ n, runTrials trialF d t n = (List.replicate n (t, d), none) := by
  intro n
  induction n with
  | zero => rfl
  | succ n ih => simp [runTrials, h, ih, List.replicate_succ]

theorem runCombos_total {V ε : Type} (trialF : List (Str × V) → Option ε)
    (rev : List Str) (ntrials : Nat) (h : ∀ d, trialF d = none) :
    ∀ (ts : List (List V)) (d : List (Str × V)),
      runCombos trialF rev ntrials d ts =
        (callsOf rev ntrials d ts,
          ts.foldl (fun d' t => applyCombo d' rev t) d, none) := by
  intro ts
  induction ts with
  | nil => intro d; rfl
  | cons t ts ih =>
    intro d
    simp only [runCombos, callsOf, List.foldl_cons]
    rw [runTrials_total trialF _ t (h _), ih]

theorem callsOf_length {V : Type} (rev : List Str) (ntrials : Nat) :
    ∀ (ts : List (List V)) (d : List (Str × V)),
      (callsOf rev ntrials d ts).length = ts.length * ntrials := by
  intro ts
  induction ts with
  | nil =>
    intro d
    simp [callsOf]
  | cons t ts ih =>
    intro d
    simp only [callsOf, List.length_append, List.length_replicate, ih,
      List.length_cons]
    ring

theorem callsOf_ne_nil {V : Type} (rev : List Str) (ntrials : Nat)
    (ts : List (List V)) (d : List (Str × V)) (hts : ts ≠ [])
    (hn : 1 ≤ ntrials) : callsOf rev ntrials d ts ≠ [] := by
  intro hnil
  have h1 := callsOf_length rev ntrials ts d
  rw [hnil] at h1
  simp only [List.length_nil] at h1
  have hlen : 0 < ts.length := List.length_pos.mpr hts
  have h2 : 0 < ts.length * ntrials := Nat.mul_pos hlen hn
  omega

theorem callsOf_lookup {V : Type} (rev : List Str) (hrev : rev.Nodup)
    (ntrials : Nat) (fixed : List (Str × V)) :
    ∀ (ts : List (List V)) (d : List (Str × V)),
      (∀ t ∈ ts, rev.length ≤ t.length) →
      (∀ k, k ∉ rev → alookup k d = alookup k fixed) →
      ∀ c ∈ callsOf rev ntrials d ts, ∀ k,
        alookup k c.2 =
          match alookup k (rev.zip c.1) with
          | some v => some v
          | none => alookup k fixed := by
  intro ts
  induction ts with
  | nil =>
    intro d _ _ c hc
    cases hc
  | cons t ts ih =>
    intro d hlen hinv c hc k
    have hlt : rev.length ≤ t.length := hlen t (by simp)
    have hstep : ∀ k', alookup k' (applyCombo d rev t) =
        match alookup k' (rev.zip t) with
        | some v => some v
        | none => alookup k' d :=
      fun k' => alookup_applyCombo rev t hrev hlt d k'
    have hinv' : ∀ k', k' ∉ rev → alookup k' (applyCombo d rev t) = alookup k' fixed := by
      intro k' hk
      rw [hstep k', (alookup_zip_none_iff rev t hlt k').mpr hk]
      exact hinv k' hk
    rcases List.mem_append.mp hc with hrep | hrest
    · have hceq := List.eq_of_mem_replicate hrep
      subst hceq
      rw [hstep k]
      cases hz : alookup k (rev.zip t) with
      | some v => rfl
      | none =>
        have hk : k ∉ rev := (alookup_zip_none_iff rev t hlt k).mp hz
        exact hinv k hk
    · exact ih (applyCombo d rev t) (fun t' ht' => hlen t' (by simp [ht'])) hinv' c hrest k

theorem callsOf_getLast {V : Type} (rev : List Str) (ntrials : Nat)
    (hn : 1 ≤ ntrials) :
    ∀ (ts : List (List V)) (d : List (Str × V)), ts ≠ [] →
      (callsOf rev ntrials d ts).getLast?.map Prod.snd =
        some (ts.foldl (fun d' t => applyCombo d' rev t) d) := by
  intro ts
  induction ts with
  | nil =>
    intro d h
    exact absurd rfl h
  | cons t ts ih =>
    intro d _
    cases hts : ts with
    | nil =>
      obtain ⟨m, rfl⟩ := Nat.exists_eq_add_of_le hn
      simp only [callsOf, hts, List.append_nil, List.foldl_cons, List.foldl_nil]
      rw [Nat.add_comm, List.replicate_succ']
      rw [List.getLast?_concat]
      rfl
    | cons a b =>
      rw [← hts]
      have hts' : ts ≠ [] := by simp [hts]
      simp only [callsOf, List.foldl_cons]
      rw [List.getLast?_append]
      have hne : callsOf rev ntrials (applyCombo d rev t) ts ≠ [] :=
        callsOf_ne_nil rev ntrials ts _ hts' hn
      cases hcl : (callsOf rev ntrials (applyCombo d rev t) ts).getLast? with
      | none =>
        have hs : (callsOf rev ntrials (applyCombo d rev t) ts).getLast?.isSome = true := by
          rw [List.getLast?_isSome]
          exact hne
        rw [hcl] at hs
        simp at hs
      | some c =>
        have hsnd := ih (applyCombo d rev t) hts'
        rw [hcl] at hsnd
        simpa using hsnd

theorem getLast?_cons_ne {α : Type} (x : α) (l : List α) (h : l ≠ []) :
    (x :: l).getLast? = l.getLast? := by
  cases l with
  | nil => exact absurd rfl h
  | cons a b => rw [List.getLast?_cons_cons]

theorem foldl_applyCombo_notMem {V : Type} (rev : List Str) (hrev : rev.Nodup) :
    ∀ (ts : List (List V)) (d : List (Str × V)) (k : Str),
      (∀ t ∈ ts, rev.length ≤ t.length) → k ∉ rev →
      alookup k (ts.foldl (fun d' t => applyCombo d' rev t) d) = alookup k d := by
  intro ts
  induction ts with
  | nil =>
    intro d k _ _
    rfl
  | cons t ts ih =>
    intro d k hlen hk
    have hlt : rev.length ≤ t.length := hlen t (by simp)
    simp only [List.foldl_cons]
    rw [ih (applyCombo d rev t) k (fun t' ht' => hlen t' (by simp [ht'])) hk,
      alookup_applyCombo rev t hrev hlt d k,
      (alookup_zip_none_iff rev t hlt k).mpr hk]

theorem foldl_applyCombo_last {V : Type} (rev : List Str) (hrev : rev.Nodup) :
    ∀ (ts : List (List V)) (d : List (Str × V)) (tlast : List V),
      ts.getLast? = some tlast →
      (∀ t ∈ ts, rev.length ≤ t.length) →
      ∀ k ∈ rev,
        alookup k (ts.foldl (fun d' t => applyCombo d' rev t) d) =
          alookup k (rev.zip tlast) := by
  intro ts
  induction ts with
  | nil =>
    intro d tlast h
    cases h
  | cons t ts ih =>
    intro d tlast hlast hlen k hk
    by_cases hts : ts = []
    · subst hts
      simp only [List.getLast?_singleton, Option.some.injEq] at hlast
      subst hlast
      have hlt : rev.length ≤ t.length := hlen t (by simp)
      simp only [List.foldl_cons, List.foldl_nil]
      rw [alookup_applyCombo rev t hrev hlt d k]
      cases hz : alookup k (rev.zip t) with
      | some v => rfl
      | none =>
        exact absurd ((alookup_zip_none_iff rev t hlt k).mp hz) (fun h => h hk)
    · have hlast' : ts.getLast? = some tlast := by
        rw [getLast?_cons_ne t ts hts] at hlast
        exact hlast
      simp only [List.foldl_cons]
      exact ih (applyCombo d rev t) tlast hlast'
        (fun t' ht' => hlen t' (by simp [ht'])) k hk

/-! ## Bridge lemmas: `n_param_scan` under a passing precondition -/

theorem n_param_scan_calls {V ε : Type} (kw : List (Str × List V))
    (fixed : List (Str × V)) (order : List Str) (ntrials : Nat)
    (trialF : List (Str × V) → Option ε)
    (hset : setEqL order (kw.map Prod.fst) = true)
    (htotal : ∀ d, trialF d = none) :
    (n_param_scan kw fixed order ntrials trialF).calls =
      callsOf order.reverse ntrials fixed
        (pyProduct (order.reverse.map (fun k => (alookup k kw).getD []))) := by
  simp [n_param_scan, hset, runCombos_total trialF order.reverse ntrials htotal]

theorem n_param_scan_finalFixed {V ε : Type} (kw : List (Str × List V))
    (fixed : List (Str × V)) (order : List Str) (ntrials : Nat)
    (trialF : List (Str × V) → Option ε)
    (hset : setEqL order (kw.map Prod.fst) = true)
    (htotal : ∀ d, trialF d = none) :
    (n_param_scan kw fixed order ntrials trialF).finalFixed =
      (pyProduct (order.reverse.map (fun k => (alookup k kw).getD []))).foldl
        (fun d' t => applyCombo d' order.reverse t) fixed := by
  simp [n_param_scan, hset, runCombos_total trialF order.reverse ntrials htotal]

theorem n_param_scan_events {V ε : Type} (kw : List (Str × List V))
    (fixed : List (Str × V)) (order : List Str) (ntrials : Nat)
    (trialF : List (Str × V) → Option ε)
    (hset : setEqL order (kw.map Prod.fst) = true) :
    (n_param_scan kw fixed order ntrials trialF).events =
      (n_param_scan kw fixed order ntrials trialF).calls.map
          (fun _ => SweepEv.trialCall) ++ [SweepEv.termCall] := by
  simp [n_param_scan, hset]

theorem getLast?_eq_getLastD {α : Type} (l : List α) (v₀ : α) (h : l ≠ []) :
    l.getLast? = some (l.getLastD v₀) := by
  cases hl : l.getLast? with
  | none =>
    have hs : l.getLast?.isSome = true := by
      rw [List.getLast?_isSome]
      exact h
    rw [hl] at hs
    simp at hs
  | some x =>
    rw [List.getLastD_eq_getLast?, hl]
    rfl

/-- C2: for every sweep whose precondition passes (the key sets of the scan
parameters and of the evaluation order agree), and for every behaviour of the
trials — completing normally or raising at any point — the `finally` clause
invokes the user-supplied `terminate` exactly once, and it is the last event of
the sweep, so any trial exception reaches the caller only after `terminate`
has run. -/
theorem C2_terminate_exactly_once {V ε : Type} (kw : List (Str × List V))
    (fixed : List (Str × V)) (order : List Str) (ntrials : Nat)
    (trialF : List (Str × V) → Option ε)
    (hset : setEqL order (kw.map Prod.fst) = true) :
    ((n_param_scan kw fixed order ntrials trialF).events.count SweepEv.termCall = 1) ∧
    ((n_param_scan kw fixed order ntrials trialF).events.getLast? =
      some SweepEv.termCall) := by
  rw [n_param_scan_events kw fixed order ntrials trialF hset]
  constructor
  · rw [List.count_append]
    have hz : ((n_param_scan kw fixed order ntrials trialF).calls.map
        (fun _ => SweepEv.trialCall)).count SweepEv.termCall = 0 := by
      rw [List.count_eq_zero]
      intro hmem
      obtain ⟨c, _, habs⟩ := List.mem_map.mp hmem
      cases habs
    rw [hz]
    rfl
  · rw [List.getLast?_concat]

/-- C2 witness: a concrete erroring sweep (single scanned parameter, trial
raises immediately) still records exactly one terminating event, last. -/
theorem C2_witness :
    (setEqL ["a".data] ([(("a".data : Str), [1, 2])].map Prod.fst) = true) ∧
    ((n_param_scan [("a".data, [1, 2])] [] ["a".data] 1
        (fun _ => (some 0 : Option Nat))).events.count SweepEv.termCall = 1) ∧
    ((n_param_scan [("a".data, [1, 2])] [] ["a".data] 1
        (fun _ => (some 0 : Option Nat))).events.getLast? = some SweepEv.termCall) :=
  ⟨by decide,
    C2_terminate_exactly_once [("a".data, [1, 2])] [] ["a".data] 1
      (fun _ => (some 0 : Option Nat)) (by decide)⟩

/-- C7: with a valid configuration (distinct scan-parameter keys, evaluation
order a permutation of them) and trials that do not raise, the sweep invokes
the trial recorder exactly `(∏ candidate-list lengths) * ntrials` times, and
every invocation's keyword dictionary behaves as the fixed parameters overlaid
by the current combination: a key scanned by the current combination reads its
scanned value, every other key reads its fixed value. -/
theorem C7_count_and_overlay {V ε : Type} (kw : List (Str × List V))
    (fixed : List (Str × V)) (order : List Str) (ntrials : Nat)
    (trialF : List (Str × V) → Option ε)
    (hkeys : (kw.map Prod.fst).Nodup)
    (hperm : order.Perm (kw.map Prod.fst))
    (htotal : ∀ d, trialF d = none) :
    ((n_param_scan kw fixed order ntrials trialF).calls.length =
        (kw.map (fun p => p.2.length)).prod * ntrials) ∧
    (∀ c ∈ (n_param_scan kw fixed order ntrials trialF).calls, ∀ k,
        alookup k c.2 =
          match alookup k (order.reverse.zip c.1) with
          | some v => some v
          | none => alookup k fixed) := by
  have hset : setEqL order (kw.map Prod.fst) = true :=
    setEqL_of_perm order (kw.map Prod.fst) hperm
  have hordnd : order.Nodup := hperm.nodup_iff.mpr hkeys
  have hrevnd : order.reverse.Nodup := List.nodup_reverse.mpr hordnd
  have hcalls := n_param_scan_calls kw fixed order ntrials trialF hset htotal
  have hlen : ∀ t ∈ pyProduct (order.reverse.map (fun k => (alookup k kw).getD [])),
      order.reverse.length ≤ t.length := by
    intro t ht
    rw [pyProduct_mem_length ht, List.length_map]
  constructor
  · rw [hcalls, callsOf_length, pyProduct_length]
    congr 1
    rw [List.map_map]
    have h1 : (order.reverse.map (List.length ∘ fun k => (alookup k kw).getD [])).Perm
        ((kw.map Prod.fst).map (List.length ∘ fun k => (alookup k kw).getD [])) :=
      ((order.reverse_perm).trans hperm).map _
    rw [h1.prod_eq, List.map_map]
    congr 1
    apply List.map_congr_left
    intro p hp
    simp only [Function.comp_apply, alookup_mem_nodup hkeys hp, Option.getD_some]
  · intro c hc k
    rw [hcalls] at hc
    exact callsOf_lookup order.reverse hrevnd ntrials fixed _ fixed hlen
      (fun _ _ => rfl) c hc k

/-- C7 witness: a concrete two-parameter sweep with two trials per combination
makes `2 * 2 * 2 = 8` calls, and a probe call carries the scanned values over
the fixed ones. -/
theorem C7_witness :
    ((([(("a".data : Str), [1, 2]), ("b".data, [10, 20])]).map Prod.fst).Nodup ∧
      (["a".data, "b".data] : List Str).Perm
        (([(("a".data : Str), [1, 2]), ("b".data, [10, 20])]).map Prod.fst)) ∧
    ((n_param_scan [("a".data, [1, 2]), ("b".data, [10, 20])]
        [("c".data, 7)] ["a".data, "b".data] 2
        (fun _ => (none : Option Unit))).calls.length =
      (([(("a".data : Str), [1, 2]), ("b".data, [10, 20])]).map
        (fun p => p.2.length)).prod * 2) :=
  ⟨⟨by decide, by decide⟩,
    (C7_count_and_overlay [("a".data, [1, 2]), ("b".data, [10, 20])]
      [("c".data, 7)] ["a".data, "b".data] 2 (fun _ => (none : Option Unit))
      (by decide) (by decide) (fun _ => rfl)).1⟩

/-- C9: `kwargs = fixed_params` aliases the caller's dictionary, so the sweep
mutates `fixed_params` in place: after an error-free sweep over nonempty
candidate lists, every scanned key reads the last element of its candidate
list (the last combination's value), every other key is untouched, and the
dictionary passed to the final trial is the same (threaded) dictionary the
caller is left holding. -/
theorem C9_fixed_params_mutated {V ε : Type} (kw : List (Str × List V))
    (fixed : List (Str × V)) (order : List Str) (ntrials : Nat)
    (trialF : List (Str × V) → Option ε)
    (hkeys : (kw.map Prod.fst).Nodup)
    (hperm : order.Perm (kw.map Prod.fst))
    (hne : ∀ p ∈ kw, p.2 ≠ [])
    (hnt : 1 ≤ ntrials)
    (htotal : ∀ d, trialF d = none) :
    (∀ p ∈ kw, alookup p.1 (n_param_scan kw fixed order ntrials trialF).finalFixed =
        p.2.getLast?) ∧
    (∀ k, k ∉ kw.map Prod.fst →
        alookup k (n_param_scan kw fixed order ntrials trialF).finalFixed =
          alookup k fixed) ∧
    ((n_param_scan kw fixed order ntrials trialF).calls.getLast?.map Prod.snd =
        some (n_param_scan kw fixed order ntrials trialF).finalFixed) := by
  have hset : setEqL order (kw.map Prod.fst) = true :=
    setEqL_of_perm order (kw.map Prod.fst) hperm
  have hordnd : order.Nodup := hperm.nodup_iff.mpr hkeys
  have hrevnd : order.reverse.Nodup := List.nodup_reverse.mpr hordnd
  have hfinal := n_param_scan_finalFixed kw fixed order ntrials trialF hset htotal
  have hcalls := n_param_scan_calls kw fixed order ntrials trialF hset htotal
  have hlistsne : ∀ l ∈ order.reverse.map (fun k => (alookup k kw).getD []), l ≠ [] := by
    intro l hl
    obtain ⟨k, hk, rfl⟩ := List.mem_map.mp hl
    have hkord : k ∈ order := List.mem_reverse.mp hk
    have hkkeys : k ∈ kw.map Prod.fst := hperm.mem_iff.mp hkord
    obtain ⟨p, hp, rfl⟩ := List.mem_map.mp hkkeys
    rw [alookup_mem_nodup hkeys hp]
    exact hne p hp
  have hcombosne : pyProduct (order.reverse.map (fun k => (alookup k kw).getD [])) ≠ [] :=
    pyProduct_ne_nil hlistsne
  have hlen : ∀ t ∈ pyProduct (order.reverse.map (fun k => (alookup k kw).getD [])),
      order.reverse.length ≤ t.length := by
    intro t ht
    rw [pyProduct_mem_length ht, List.length_map]
  refine ⟨?s1, ?s2, ?s3⟩
  case s1 =>
    intro p hp
    have hkord : p.1 ∈ order :=
      hperm.mem_iff.mpr (List.mem_map.mpr ⟨p, hp, rfl⟩)
    have hkrev : p.1 ∈ order.reverse := List.mem_reverse.mpr hkord
    obtain ⟨v₀, _⟩ := List.exists_mem_of_ne_nil p.2 (hne p hp)
    have hlast := pyProduct_getLast? v₀
      (order.reverse.map (fun k => (alookup k kw).getD [])) hlistsne
    rw [hfinal,
      foldl_applyCombo_last order.reverse hrevnd _ fixed _ hlast hlen p.1 hkrev,
      List.map_map, zip_map_self, alookup_map_pair _ _ _ hkrev]
    simp only [Function.comp_apply, alookup_mem_nodup hkeys hp, Option.getD_some]
    exact (getLast?_eq_getLastD p.2 v₀ (hne p hp)).symm
  case s2 =>
    intro k hk
    have hkord : k ∉ order := fun h => hk (hperm.mem_iff.mp h)
    have hkrev : k ∉ order.reverse := fun h => hkord (List.mem_reverse.mp h)
    rw [hfinal]
    exact foldl_applyCombo_notMem order.reverse hrevnd _ fixed k hlen hkrev
  case s3 =>
    rw [hcalls, hfinal]
    exact callsOf_getLast order.reverse ntrials hnt _ fixed hcombosne

/-- C9 witness: a concrete sweep leaves the caller's `fixed_params` holding
the scanned keys at their last candidate values, the untouched key intact, and
the final trial's dictionary identical to the final state. -/
theorem C9_witness :
    ((∀ p ∈ [(("a".data : Str), ([1, 2] : List Nat)), ("b".data, [10, 20])],
        p.2 ≠ []) ∧ 1 ≤ 1) ∧
    ((∀ p ∈ [(("a".data : Str), ([1, 2] : List Nat)), ("b".data, [10, 20])],
        alookup p.1 (n_param_scan [("a".data, [1, 2]), ("b".data, [10, 20])]
          [("c".data, 7)] ["a".data, "b".data] 1
          (fun _ => (none : Option Unit))).finalFixed = p.2.getLast?) ∧
      (∀ k, k ∉ ([(("a".data : Str), ([1, 2] : List Nat)),
          ("b".data, [10, 20])].map Prod.fst) →
        alookup k (n_param_scan [("a".data, [1, 2]), ("b".data, [10, 20])]
          [("c".data, 7)] ["a".data, "b".data] 1
          (fun _ => (none : Option Unit))).finalFixed =
          alookup k [("c".data, 7)]) ∧
      ((n_param_scan [("a".data, [1, 2]), ("b".data, [10, 20])]
          [("c".data, 7)] ["a".data, "b".data] 1
          (fun _ => (none : Option Unit))).calls.getLast?.map Prod.snd =
        some (n_param_scan [("a".data, [1, 2]), ("b".data, [10, 20])]
          [("c".data, 7)] ["a".data, "b".data] 1
          (fun _ => (none : Option Unit))).finalFixed)) :=
  ⟨⟨by decide, by decide⟩,
    C9_fixed_params_mutated [("a".data, [1, 2]), ("b".data, [10, 20])]
      [("c".data, 7)] ["a".data, "b".data] 1 (fun _ => (none : Option Unit))
      (by decide) (by decide) (by decide) (by decide) (fun _ => rfl)⟩

/-! ## Lemmas for the iteration order of a two-key scan -/

theorem callsOf_one_map {V β : Type} (rev : List Str)
    (f : List V × List (Str × V) → β) (g : List V → β) :
    ∀ (ts : List (List V)) (d : List (Str × V)),
      (∀ t ∈ ts, ∀ d', f (t, applyCombo d' rev t) = g t) →
      (callsOf rev 1 d ts).map f = ts.map g := by
  intro ts
  induction ts with
  | nil =>
    intro d _
    rfl
  | cons t ts ih =>
    intro d hfg
    simp only [callsOf, List.replicate_one, List.map_append, List.map_cons,
      List.map_nil, List.cons_append, List.nil_append]
    rw [hfg t (by simp) d, ih (applyCombo d rev t) (fun t' ht' d' => hfg t' (by simp [ht']) d')]

theorem prodCons_nil_singleton {α : Type} :
    ∀ (l : List α), prodCons l [[]] = l.map (fun x => [x]) := by
  intro l
  induction l with
  | nil => rfl
  | cons x xs ih => simp [prodCons, ih]

theorem map_prodCons_two {V : Type} (as : List V) :
    ∀ (bs : List V),
      (prodCons bs (as.map (fun x => [x]))).map
          (fun t : List V =>
            match t with
            | [y, x] => ((some x : Option V), (some y : Option V))
            | _ => (none, none)) =
        (bs.map (fun y => as.map (fun x => ((some x : Option V), some y)))).flatten := by
  intro bs
  induction bs with
  | nil => rfl
  | cons y ys ih =>
    simp only [prodCons, List.map_append, List.map_cons, List.flatten_cons]
    rw [ih]
    congr 1
    rw [List.map_map, List.map_map]
    rfl

/-- C1 (counterexample): with `scan_params = {a: [1,2], b: [10,20]}` and
`order = [a, b]`, the sweep does *not* iterate `b` fastest: the claimed call
sequence `(a=1,b=10), (a=1,b=20), (a=2,b=10), (a=2,b=20)` differs from the one
the code produces. -/
theorem C1_counterexample :
    ¬ ((n_param_scan [("a".data, [1, 2]), ("b".data, [10, 20])] []
          ["a".data, "b".data] 1 (fun _ => (none : Option Unit))).calls.map
        (fun c => (alookup ("a".data) c.2, alookup ("b".data) c.2)) =
      [(some 1, some 10), (some 1, some 20), (some 2, some 10), (some 2, some 20)]) := by
  decide

/-- C1 (amended): `n_param_scan` traverses the Cartesian product of the
candidate lists with the *leftmost*-listed parameter of `order` varying
fastest (the product is taken over `order` reversed, and `itertools.product`
varies its last argument fastest): for a two-key scan with `order = [a, b]`,
the calls run through `bs` in the outer loop and `as` in the inner one. -/
theorem C1_order_of_iteration {V ε : Type} (a b : Str) (as bs : List V)
    (trialF : List (Str × V) → Option ε)
    (hab : a ≠ b) (htotal : ∀ d, trialF d = none) :
    (n_param_scan [(a, as), (b, bs)] [] [a, b] 1 trialF).calls.map
        (fun c => (alookup a c.2, alookup b c.2)) =
      (bs.map (fun y => as.map (fun x => ((some x : Option V), some y)))).flatten := by
  have hba : ¬ b = a := fun h => hab h.symm
  have hperm : ([a, b] : List Str).Perm ([(a, as), (b, bs)].map Prod.fst) := by
    simp
  have hset : setEqL [a, b] ([(a, as), (b, bs)].map Prod.fst) = true :=
    setEqL_of_perm _ _ hperm
  have hcalls := n_param_scan_calls [(a, as), (b, bs)] [] [a, b] 1 trialF hset htotal
  have hlists : ([a, b] : List Str).reverse.map
      (fun k => (alookup k [(a, as), (b, bs)]).getD []) = [bs, as] := by
    simp [alookup, hba, hab]
  rw [hcalls, hlists]
  have happly : ∀ (d' : List (Str × V)) (y x : V),
      (alookup a (applyCombo d' ([a, b] : List Str).reverse [y, x]),
        alookup b (applyCombo d' ([a, b] : List Str).reverse [y, x])) =
      (some x, some y) := by
    intro d' y x
    simp [applyCombo, alookup_dictUpdate, hba, hab]
  have hshape : ∀ t ∈ pyProduct [bs, as], ∀ d' : List (Str × V),
      (fun c : List V × List (Str × V) =>
        (alookup a c.2, alookup b c.2)) (t, applyCombo d' ([a, b] : List Str).reverse t) =
      (fun t : List V =>
        match t with
        | [y, x] => ((some x : Option V), (some y : Option V))
        | _ => (none, none)) t := by
    intro t ht d'
    obtain ⟨y, hy, t', ht', rfl⟩ := mem_prodCons ht
    simp only [pyProduct, prodCons_nil_singleton] at ht'
    obtain ⟨x, hx, rfl⟩ := List.mem_map.mp ht'
    exact happly d' y x
  rw [callsOf_one_map _ _ _ (pyProduct [bs, as]) [] hshape]
  simp only [pyProduct, prodCons_nil_singleton]
  exact map_prodCons_two as bs

/-- C1 witness: the concrete two-key example iterates
`(a=1,b=10), (a=2,b=10), (a=1,b=20), (a=2,b=20)` — the first-listed key `a`
varying fastest. -/
theorem C1_witness :
    (("a".data : Str) ≠ "b".data) ∧
    ((n_param_scan [("a".data, [1, 2]), ("b".data, [10, 20])] []
          ["a".data, "b".data] 1 (fun _ => (none : Option Unit))).calls.map
        (fun c => (alookup ("a".data) c.2, alookup ("b".data) c.2)) =
      (([10, 20] : List Nat).map
        (fun y => ([1, 2] : List Nat).map
          (fun x => ((some x : Option Nat), some y)))).flatten) :=
  ⟨by decide,
    C1_order_of_iteration ("a".data) ("b".data) [1, 2] [10, 20]
      (fun _ => (none : Option Unit)) (by decide) (fun _ => rfl)⟩

/-! ## Lemmas: single-character find vs. takeWhile -/

theorem findSubNat?_singleton_none {c : Char} {s : Str}
    (h : findSubNat? [c] s = none) : c ∉ s := by
  induction s with
  | nil => simp
  | cons x xs ih =>
    simp only [findSubNat?] at h
    by_cases hlw : leadsWith [c] (x :: xs) = true
    · rw [if_pos hlw] at h
      cases h
    · rw [if_neg hlw] at h
      have hcx : ¬ c = x := by
        intro he
        apply hlw
        simp [leadsWith, he]
      have hrest : findSubNat? [c] xs = none := by
        cases hr : findSubNat? [c] xs with
        | none => rfl
        | some e =>
          rw [hr] at h
          cases h
      simp only [List.mem_cons, not_or]
      exact ⟨hcx, ih hrest⟩

theorem findSubNat?_singleton_some {c : Char} {s : Str} {e : Nat}
    (h : findSubNat? [c] s = some e) :
    s.take e = s.takeWhile (fun x => decide (x ≠ c)) ∧ c ∈ s := by
  induction s generalizing e with
  | nil =>
    simp only [findSubNat?, leadsWith] at h
    cases h
  | cons x xs ih =>
    simp only [findSubNat?] at h
    by_cases hcx : c = x
    · subst hcx
      have hlw : leadsWith [c] (c :: xs) = true := by simp [leadsWith]
      rw [if_pos hlw] at h
      have he : e = 0 := by
        cases h
        rfl
      subst he
      constructor
      · simp [List.takeWhile]
      · simp
    · have hlw : ¬ leadsWith [c] (x :: xs) = true := by
        simp [leadsWith, hcx]
      rw [if_neg hlw] at h
      cases hr : findSubNat? [c] xs with
      | none =>
        rw [hr] at h
        cases h
      | some e' =>
        rw [hr] at h
        have he : e = e' + 1 := by
          cases h
          rfl
        subst he
        obtain ⟨htake, hmem⟩ := ih hr
        constructor
        · have hxc : decide (x ≠ c) = true :=
            decide_eq_true (fun hf => hcx hf.symm)
          simp only [List.take_succ_cons, List.takeWhile]
          rw [hxc]
          simp [htake]
        · simp [hmem]

theorem plotComponent_eq_amended (doc : Str) :
    plotComponent doc = plotComponentAmended doc := by
  unfold plotComponent plotComponentAmended
  cases hfind : findSubNat? tagPLOT doc with
  | none => rfl
  | some i =>
    simp only []
    cases hnl : findSubNat? ['\n'] (doc.drop (i + tagPLOT.length)) with
    | none =>
      have hmem : '\n' ∉ doc.drop (i + tagPLOT.length) :=
        findSubNat?_singleton_none hnl
      rw [if_neg hmem]
      have hfd : pyFind (doc.drop (i + tagPLOT.length)) ['\n'] = -1 := by
        simp [pyFind, hnl]
      rw [hfd]
      have hsl : pySliceInt doc (i + tagPLOT.length)
          (((i + tagPLOT.length : Nat) : Int) + -1) = [] := by
        unfold pySliceInt
        rw [if_pos (by omega)]
      rw [hsl]
      rfl
    | some e =>
      obtain ⟨htake, hmem⟩ := findSubNat?_singleton_some hnl
      rw [if_pos hmem]
      have hfd : pyFind (doc.drop (i + tagPLOT.length)) ['\n'] = (e : Int) := by
        simp [pyFind, hnl]
      rw [hfd]
      have hsl : pySliceInt doc (i + tagPLOT.length)
          (((i + tagPLOT.length : Nat) : Int) + (e : Int)) =
          (doc.drop (i + tagPLOT.length)).take e := by
        unfold pySliceInt
        by_cases he : e = 0
        · subst he
          rw [if_pos (by omega)]
          simp
        · rw [if_neg (by omega)]
          have harg : ((((i + tagPLOT.length : Nat)) : Int) + (e : Int)).toNat -
              (i + tagPLOT.length) = e := by omega
          rw [harg]
      rw [hsl, htake]

/-- C10 (counterexample): on the docstring `PLOT_AGAINST:ab`, where no newline
follows the tag, the claimed result — the tag payload with its final character
dropped, i.e. `a` — is not what the code returns (it returns the empty
string, because the slice stop `start + find(...)` becomes `start - 1`). -/
theorem C10_counterexample :
    ¬ (get_function_doc_append ("PLOT_AGAINST:ab".data) =
        (none, some ("a".data), false)) := by
  decide

/-- C10 (amended): `get_function_doc_append` returns the substring after the
first `MODIFIES:` to the end of the docstring (stripped), or `none` when the
tag is absent; the substring after the first `PLOT_AGAINST:` up to the next
newline (stripped) — the *empty string* when no newline follows the tag — or
`none` when absent; and a skip flag true exactly when `SKIP_PLOT` occurs
anywhere. -/
theorem C10_doc_append_spec (doc : Str) :
    get_function_doc_append doc = doc_append_amended doc := by
  unfold get_function_doc_append doc_append_amended
  rw [plotComponent_eq_amended]

/-- C3: when `meta_data.csv` exists and its column set differs from the
augmented metadata row's key set, `trial` raises an error naming the data file
it has already written (`path + save_name`), the existing index file is left
unmodified, and the data file written earlier in the same trial stays in
place. -/
theorem C3_index_mismatch (path saveName : Str) (metaData : List (Str × Str))
    (trialNum : Str) (fs : TrialFS) (idx : IndexFile)
    (hidx : fs.metaCsv = some idx)
    (hmism : setEqL ((dictUpdate (dictUpdate metaData ("trial".data) trialNum)
        ("filename".data) saveName).map Prod.fst) idx.cols = false) :
    ((trialRecord path saveName metaData trialNum fs).2 =
        some (TrialErr.colsMismatch (path ++ saveName))) ∧
    ((trialRecord path saveName metaData trialNum fs).1.metaCsv = fs.metaCsv) ∧
    ((trialRecord path saveName metaData trialNum fs).1.dataFile =
        some (path ++ saveName)) := by
  simp [trialRecord, hidx, hmism]

/-- C3 witness: a concrete mismatching append — the new row has keys
`x, trial, filename` while the index holds column `y` — errors with the data
file name, leaves the index as it was, and keeps the written data file. -/
theorem C3_witness :
    ((⟨none, some ⟨["y".data], [["2".data]]⟩⟩ : TrialFS).metaCsv =
        some ⟨["y".data], [["2".data]]⟩ ∧
      setEqL ((dictUpdate (dictUpdate [(("x".data : Str), "1".data)]
          ("trial".data) ("0".data)) ("filename".data) ("t_0.csv".data)).map
        Prod.fst) (IndexFile.mk ["y".data] [["2".data]]).cols = false) ∧
    (((trialRecord ("p/".data) ("t_0.csv".data) [("x".data, "1".data)]
          ("0".data) ⟨none, some ⟨["y".data], [["2".data]]⟩⟩).2 =
        some (TrialErr.colsMismatch ("p/".data ++ "t_0.csv".data))) ∧
      ((trialRecord ("p/".data) ("t_0.csv".data) [("x".data, "1".data)]
          ("0".data) ⟨none, some ⟨["y".data], [["2".data]]⟩⟩).1.metaCsv =
        (⟨none, some ⟨["y".data], [["2".data]]⟩⟩ : TrialFS).metaCsv) ∧
      ((trialRecord ("p/".data) ("t_0.csv".data) [("x".data, "1".data)]
          ("0".data) ⟨none, some ⟨["y".data], [["2".data]]⟩⟩).1.dataFile =
        some ("p/".data ++ "t_0.csv".data))) :=
  ⟨⟨rfl, by decide⟩,
    C3_index_mismatch ("p/".data) ("t_0.csv".data) [("x".data, "1".data)]
      ("0".data) ⟨none, some ⟨["y".data], [["2".data]]⟩⟩
      ⟨["y".data], [["2".data]]⟩ rfl (by decide)⟩

/-- C5: evaluating the skip logic at the failing input — the analysis file
exposes transforms `f1, f2` and the caller passes `skip_func = ['f1']` (a list,
as the docstring invites) — shows that nothing is skipped and the
`Did not skip ...` warning fires instead: `skip_func is not list` is true even
for a list value, so the list is wrapped once more and `remove` never matches. -/
theorem C5_list_skip_ineffective :
    computeFunctionsList ["f1".data, "f2".data]
        (some (SkipArg.ofList ["f1".data])) =
      (["f1".data, "f2".data], [SkipArg.ofList ["f1".data]]) := by
  decide

/-- C8: a transform whose application yields `None` is `continue`d over: the
loop state — current data object, `data_saver`, and all three provenance
lists — is exactly the state before the step, and the remaining transforms
still run. -/
theorem C8_none_transform_skipped {D : Type} (st : PipeSt D) (i : Nat)
    (f : D → Option D) (doc : Str) (rest : List (Nat × (D → Option D) × Str))
    (h : dataApply f st.data = none) :
    pipeFold st ((i, f, doc) :: rest) = pipeFold st rest := by
  simp only [pipeFold, List.foldl_cons]
  congr 1
  simp [pipeStep, h]

/-- C8 witness: a `None`-returning first transform leaves the pipeline to run
the remaining incrementing transform exactly as if the first were absent. -/
theorem C8_witness :
    (dataApply (fun _ : Nat => (none : Option Nat)) (pipeInit 0).data = none) ∧
    pipeFold (pipeInit 0)
        [(0, fun _ : Nat => (none : Option Nat), []), (1, fun n : Nat => some (n + 1), [])] =
      pipeFold (pipeInit 0) [(1, fun n : Nat => some (n + 1), [])] :=
  ⟨rfl,
    C8_none_transform_skipped (pipeInit 0) 0 (fun _ => none) []
      [(1, fun n : Nat => some (n + 1), [])] rfl⟩

/-! ## Lemmas: splitting and joining lines -/

theorem splitOnChar_no_sep {sep : Char} {x : Str} (h : sep ∉ x) :
    splitOnChar sep x = [x] := by
  induction x with
  | nil => rfl
  | cons c cs ih =>
    simp only [List.mem_cons, not_or] at h
    have hcs : sep ∉ cs := h.2
    have hc : ¬ c = sep := fun he => h.1 he.symm
    simp only [splitOnChar, if_neg hc, ih hcs]

theorem splitOnChar_append_sep {sep : Char} {x : Str} (r : Str) (h : sep ∉ x) :
    splitOnChar sep (x ++ sep :: r) = x :: splitOnChar sep r := by
  induction x with
  | nil => simp [splitOnChar]
  | cons c cs ih =>
    simp only [List.mem_cons, not_or] at h
    have hc : ¬ c = sep := fun he => h.1 he.symm
    simp only [List.cons_append, splitOnChar, if_neg hc, List.append_eq]
    rw [ih h.2]

theorem splitOnChar_render {ls : List Str} (h : ∀ l ∈ ls, '\n' ∉ l) :
    splitOnChar '\n' (ls.foldr (fun l acc => l ++ '\n' :: acc) []) = ls ++ [[]] := by
  induction ls with
  | nil => rfl
  | cons l ls ih =>
    simp only [List.foldr_cons]
    rw [splitOnChar_append_sep _ (h l (by simp)), ih (fun l' hl' => h l' (by simp [hl']))]
    rfl

theorem splitLinesPy_render {ls : List Str} (h : ∀ l ∈ ls, '\n' ∉ l) :
    splitLinesPy (ls.foldr (fun l acc => l ++ '\n' :: acc) []) = ls := by
  unfold splitLinesPy
  rw [splitOnChar_render h]
  simp [List.getLast?_concat, List.dropLast_concat]

theorem splitOnChar_joinChar {sep : Char} :
    ∀ {cells : List Str}, cells ≠ [] → (∀ c ∈ cells, sep ∉ c) →
      splitOnChar sep (joinChar sep cells) = cells := by
  intro cells
  induction cells with
  | nil =>
    intro h _
    exact absurd rfl h
  | cons x xs ih =>
    intro _ hsep
    cases hxs : xs with
    | nil =>
      simp only [joinChar]
      exact splitOnChar_no_sep (hsep x (by simp))
    | cons y ys =>
      rw [← hxs]
      have hxs' : xs ≠ [] := by simp [hxs]
      have hjoin : joinChar sep (x :: xs) = x ++ sep :: joinChar sep xs := by
        rw [hxs]
        rfl
      rw [hjoin, splitOnChar_append_sep _ (hsep x (by simp)),
        ih hxs' (fun c hc => hsep c (by simp [hc]))]

theorem mem_joinChar {sep : Char} {c : Char} :
    ∀ {l : List Str}, c ∈ joinChar sep l → c = sep ∨ ∃ x ∈ l, c ∈ x := by
  intro l
  induction l with
  | nil =>
    intro h
    cases h
  | cons x xs ih =>
    cases hxs : xs with
    | nil =>
      intro h
      simp only [joinChar] at h
      exact Or.inr ⟨x, by simp, h⟩
    | cons y ys =>
      intro h
      have hjoin : joinChar sep (x :: xs) = x ++ sep :: joinChar sep xs := by
        rw [hxs]
        rfl
      rw [← hxs, hjoin] at h
      rcases List.mem_append.mp h with hx | hrest
      · exact Or.inr ⟨x, by simp, hx⟩
      · rcases List.mem_cons.mp hrest with hc | hc
        · exact Or.inl hc
        · rcases ih hc with hc' | ⟨z, hz, hcz⟩
          · exact Or.inl hc'
          · exact Or.inr ⟨z, List.mem_cons_of_mem x (hxs ▸ hz), hcz⟩

/-! ## Lemmas: substring search -/

theorem leadsWith_append_left {p q s : Str}
    (h : leadsWith (p ++ q) s = true) : leadsWith p s = true := by
  induction p generalizing s with
  | nil => rfl
  | cons a p ih =>
    cases s with
    | nil =>
      simp only [List.cons_append, leadsWith] at h
      cases h
    | cons c cs =>
      simp only [List.cons_append, leadsWith, Bool.and_eq_true] at h ⊢
      exact ⟨h.1, ih h.2⟩

theorem containsSub_mono {s p q : Str}
    (h : containsSub s (p ++ q) = true) : containsSub s p = true := by
  unfold containsSub at h ⊢
  induction s with
  | nil =>
    simp only [findSubNat?] at h ⊢
    by_cases hl : leadsWith (p ++ q) [] = true
    · rw [if_pos (leadsWith_append_left hl)]
      rfl
    · rw [if_neg hl] at h
      cases h
  | cons c cs ih =>
    simp only [findSubNat?] at h ⊢
    by_cases hl : leadsWith (p ++ q) (c :: cs) = true
    · rw [if_pos (leadsWith_append_left hl)]
      rfl
    · rw [if_neg hl] at h
      by_cases hp : leadsWith p (c :: cs) = true
      · rw [if_pos hp]
        rfl
      · rw [if_neg hp]
        have hrest : (findSubNat? (p ++ q) cs).isSome = true := by
          cases hr : findSubNat? (p ++ q) cs with
          | none =>
            rw [hr] at h
            cases h
          | some e => rfl
        have := ih hrest
        cases hr : findSubNat? p cs with
        | none =>
          rw [hr] at this
          cases this
        | some e => rfl

theorem containsSub_not_of_not_sub {s p q : Str}
    (h : containsSub s p = false) : containsSub s (p ++ q) = false := by
  cases hc : containsSub s (p ++ q) with
  | false => rfl
  | true => rw [containsSub_mono hc] at h; cases h

theorem leadsWith_append_self (p r : Str) : leadsWith p (p ++ r) = true := by
  induction p with
  | nil => rfl
  | cons a ps ih => simp [leadsWith, ih]

theorem drop_append_len {α : Type} :
    ∀ (l₁ l₂ : List α) (n : Nat), (l₁ ++ l₂).drop (l₁.length + n) = l₂.drop n := by
  intro l₁
  induction l₁ with
  | nil =>
    intro l₂ n
    simp
  | cons a l ih =>
    intro l₂ n
    simp only [List.cons_append, List.length_cons]
    have : l.length + 1 + n = (l.length + n) + 1 := by omega
    rw [this, List.drop_succ_cons, ih]

theorem findSubNat?_append_of_head {c₀ : Char} {pr : Str} :
    ∀ {k rest : Str}, c₀ ∉ k → leadsWith (c₀ :: pr) rest = true →
      findSubNat? (c₀ :: pr) (k ++ rest) = some k.length := by
  intro k
  induction k with
  | nil =>
    intro rest _ hlead
    simp only [List.nil_append, List.length_nil]
    cases rest with
    | nil => simp [leadsWith] at hlead
    | cons r rs => simp only [findSubNat?, if_pos hlead]
  | cons a ks ih =>
    intro rest hk hlead
    simp only [List.mem_cons, not_or] at hk
    have ha : ¬ leadsWith (c₀ :: pr) (a :: (ks ++ rest)) = true := by
      simp only [leadsWith, Bool.and_eq_true, decide_eq_true_eq]
      intro hcon
      exact hk.1 hcon.1
    simp only [List.cons_append, findSubNat?, List.append_eq, if_neg ha, ih hk.2 hlead,
      Option.map_some', List.length_cons]

/-! ## Lemmas: the `key:::value` split and the heading scan -/

theorem splitOnSub_boundary {k v : Str} (c₀ : Char) (pr : Str)
    (hk : c₀ ∉ k) (hv : containsSub v (c₀ :: pr) = false) :
    splitOnSub (k ++ (c₀ :: pr) ++ v) (c₀ :: pr) = [k, v] := by
  have hfind : findSubNat? (c₀ :: pr) (k ++ (c₀ :: pr) ++ v) = some k.length := by
    rw [List.append_assoc]
    exact findSubNat?_append_of_head hk (leadsWith_append_self _ v)
  have hvnone : findSubNat? (c₀ :: pr) v = none := by
    cases hr : findSubNat? (c₀ :: pr) v with
    | none => rfl
    | some e =>
      unfold containsSub at hv
      rw [hr] at hv
      cases hv
  have htake : (k ++ (c₀ :: pr) ++ v).take k.length = k := by
    rw [List.append_assoc]
    exact List.take_left k ((c₀ :: pr) ++ v)
  have hdrop : (k ++ (c₀ :: pr) ++ v).drop (k.length + (c₀ :: pr).length) = v := by
    rw [List.append_assoc, drop_append_len]
    have h2 := drop_append_len (c₀ :: pr) v 0
    simp only [Nat.add_zero, List.drop_zero] at h2
    exact h2
  obtain ⟨n', hn⟩ : ∃ n', (k ++ (c₀ :: pr) ++ v).length = n' + 1 := by
    refine ⟨(k ++ (c₀ :: pr) ++ v).length - 1, ?_⟩
    have hpos : 0 < (k ++ (c₀ :: pr) ++ v).length := by
      simp [List.length_append]
    omega
  unfold splitOnSub
  rw [hn]
  simp only [splitOnSubF, hfind, htake, hdrop]
  rw [hvnone]

theorem scanIndexAux_cons_pos (idx i : Nat) (l : Str) (rest : List Str)
    (hi : 1 ≤ i) :
    scanIndexAux idx i (l :: rest) =
      scanIndexAux (if containsSub l ("ekpy_heading_complete".data) then i else idx)
        (i + 1) rest := by
  simp only [scanIndexAux]
  rw [if_neg]
  intro hcond
  rw [decide_eq_false (by omega : ¬ i = 0)] at hcond
  simp at hcond

theorem scanIndexAux_skip :
    ∀ (ls : List Str) (rest : List Str) (idx i : Nat), 1 ≤ i →
      (∀ l ∈ ls, containsSub l ("ekpy_heading_complete".data) = false) →
      scanIndexAux idx i (ls ++ rest) = scanIndexAux idx (i + ls.length) rest := by
  intro ls
  induction ls with
  | nil =>
    intro rest idx i _ _
    simp
  | cons l ls ih =>
    intro rest idx i hi hcp
    rw [List.cons_append, scanIndexAux_cons_pos idx i l (ls ++ rest) hi,
      if_neg (by rw [hcp l (by simp)]; simp),
      ih rest idx (i + 1) (by omega) (fun l' hl' => hcp l' (by simp [hl']))]
    congr 1
    simp [List.length_cons]
    omega

theorem scanIndex_header (metaLines csvLines : List Str)
    (hm : ∀ l ∈ metaLines, containsSub l ("ekpy_heading_complete".data) = false)
    (hc : ∀ l ∈ csvLines, containsSub l ("ekpy_heading_complete".data) = false) :
    scanIndex ("ekpy_heading".data ::
        (metaLines ++ "ekpy_heading_complete".data :: csvLines)) =
      metaLines.length + 1 := by
  unfold scanIndex
  simp only [scanIndexAux]
  rw [if_neg (by decide), if_neg (by decide)]
  rw [show (0 + 1 : Nat) = 1 from rfl]
  rw [scanIndexAux_skip metaLines _ _ 1 (by omega) hm,
    scanIndexAux_cons_pos _ _ _ _ (by omega), if_pos (by decide),
    show csvLines = csvLines ++ [] from (List.append_nil csvLines).symm,
    scanIndexAux_skip csvLines [] _ _ (by omega) hc]
  simp [scanIndexAux]
  omega

theorem parseMetaAux_walk (cLine : Str) (rest : List Str)
    (hcl : containsSub cLine ("ekpy_heading_complete".data) = true) :
    ∀ (meta : List (Str × Str)) (acc : List (Str × Str)),
      (∀ kv ∈ meta, (':' : Char) ∉ kv.1 ∧ containsSub kv.2 (":::".data) = false ∧
        containsSub (kv.1 ++ ":::".data ++ kv.2) ("ekpy_heading".data) = false ∧
        ('\n' : Char) ∉ kv.1 ∧ ('\n' : Char) ∉ kv.2 ∧
        ('\r' : Char) ∉ kv.1 ∧ ('\r' : Char) ∉ kv.2) →
      parseMetaAux acc
          ((meta.map (fun kv => kv.1 ++ ":::".data ++ kv.2)) ++ cLine :: rest) =
        Except.ok (meta.foldl (fun a kv => dictUpdate a kv.1 kv.2) acc) := by
  intro meta
  induction meta with
  | nil =>
    intro acc _
    simp only [List.map_nil, List.nil_append, List.foldl_nil, parseMetaAux]
    rw [if_pos hcl]
  | cons kv meta ih =>
    intro acc hkv
    obtain ⟨hcolon, hvsep, hhd, hnk, hnv, hrk, hrv⟩ := hkv kv (by simp)
    have hcp : containsSub (kv.1 ++ ":::".data ++ kv.2)
        ("ekpy_heading_complete".data) = false := by
      rw [show ("ekpy_heading_complete".data : Str) =
        "ekpy_heading".data ++ "_complete".data from rfl]
      exact containsSub_not_of_not_sub hhd
    have hlen3 : 3 ≤ (kv.1 ++ ":::".data ++ kv.2).length := by
      rw [List.length_append, List.length_append,
        show (":::".data : Str).length = 3 from rfl]
      omega
    have hne1 : ¬ ((kv.1 ++ ":::".data ++ kv.2) = []) := by
      intro he
      rw [he] at hlen3
      simp at hlen3
    have hne2 : ¬ ((kv.1 ++ ":::".data ++ kv.2) = ['\r']) := by
      intro he
      rw [he] at hlen3
      simp at hlen3
    have hmemline : ∀ c ∈ kv.1 ++ ":::".data ++ kv.2, c ≠ '\n' ∧ c ≠ '\r' := by
      intro c hcm
      rcases List.mem_append.mp hcm with h1 | h2
      · rcases List.mem_append.mp h1 with ha | hb
        · exact ⟨fun he => hnk (he ▸ ha), fun he => hrk (he ▸ ha)⟩
        · rw [show (":::".data : Str) = [':', ':', ':'] from rfl] at hb
          have hcc : c = ':' := by simpa using hb
          subst hcc
          exact ⟨by decide, by decide⟩
      · exact ⟨fun he => hnv (he ▸ h2), fun he => hrv (he ▸ h2)⟩
    have hin : (kv.1 ++ ":::".data ++ kv.2).filter (fun c => c != '\n') =
        kv.1 ++ ":::".data ++ kv.2 :=
      List.filter_eq_self.mpr (fun c hcm => bne_iff_ne.mpr (hmemline c hcm).1)
    have hout : ((kv.1 ++ ":::".data ++ kv.2).filter (fun c => c != '\n')).filter
        (fun c => c != '\r') = kv.1 ++ ":::".data ++ kv.2 := by
      rw [hin]
      exact List.filter_eq_self.mpr (fun c hcm => bne_iff_ne.mpr (hmemline c hcm).2)
    have hsplit : splitOnSub (kv.1 ++ ":::".data ++ kv.2) (":::".data) =
        [kv.1, kv.2] := by
      rw [show (":::".data : Str) = ':' :: "::".data from rfl]
      exact splitOnSub_boundary ':' ("::".data) hcolon hvsep
    simp only [List.map_cons, List.cons_append, parseMetaAux]
    rw [if_neg (by rw [hcp]; simp), if_neg (by rw [hhd]; simp),
      if_neg (by
        intro hcond
        rcases Bool.or_eq_true_iff.mp hcond with h | h
        · exact hne1 (of_decide_eq_true h)
        · exact hne2 (of_decide_eq_true h)),
      hout, hsplit]
    simp only [List.get?, List.foldl_cons]
    exact ih (dictUpdate acc kv.1 kv.2) (fun kv' hkv' => hkv kv' (by simp [hkv']))

theorem readCsvLines_render (data : Table)
    (hne : ∀ line ∈ tableToCsvLines data, line ≠ [])
    (hcols : data.cols ≠ []) (hccols : ∀ c ∈ data.cols, (',' : Char) ∉ c)
    (hrows : ∀ row ∈ data.rows, row ≠ [] ∧ ∀ c ∈ row, (',' : Char) ∉ c) :
    readCsvLines (tableToCsvLines data) = Except.ok data := by
  obtain ⟨cols, rows⟩ := data
  have hfilter : (tableToCsvLines ⟨cols, rows⟩).filter (fun l => !l.isEmpty) =
      tableToCsvLines ⟨cols, rows⟩ := by
    apply List.filter_eq_self.mpr
    intro l hl
    simp [List.isEmpty_iff, hne l hl]
  unfold readCsvLines
  rw [hfilter]
  simp only [tableToCsvLines]
  rw [splitOnChar_joinChar hcols hccols, List.map_map]
  have hrows' : rows.map (fun r => splitOnChar ',' (joinChar ',' r)) = rows := by
    have := List.map_congr_left
      (l := rows) (f := fun r => splitOnChar ',' (joinChar ',' r)) (g := id)
      (fun r hr => splitOnChar_joinChar (hrows r hr).1 (hrows r hr).2)
    rw [this, List.map_id]
  have hcomp : ((fun r => splitOnChar ',' r) ∘ fun r => joinChar ',' r) =
      (fun r => splitOnChar ',' (joinChar ',' r)) := rfl
  rw [hcomp, hrows']

/-- C4 (amended): writing a table and a metadata mapping with
`write_ekpy_data` and reading the file back with `read_ekpy_data`
(`return_meta_data=True`) returns the table and the metadata unchanged,
provided the metadata entries are single-line, free of the `:::` separator
(no `:` in a key, no `:::` in a value) and of the `ekpy_heading` sentinel, and
the table's rendered CSV lines are nonblank, newline-free, comma-free per
cell, and free of the `ekpy_heading_complete` sentinel. -/
theorem C4_write_read_round_trip (data : Table) (meta : List (Str × Str))
    (hnodup : (meta.map Prod.fst).Nodup)
    (hmeta : ∀ kv ∈ meta, (':' : Char) ∉ kv.1 ∧
      containsSub kv.2 (":::".data) = false ∧
      containsSub (kv.1 ++ ":::".data ++ kv.2) ("ekpy_heading".data) = false ∧
      ('\n' : Char) ∉ kv.1 ∧ ('\n' : Char) ∉ kv.2 ∧
      ('\r' : Char) ∉ kv.1 ∧ ('\r' : Char) ∉ kv.2)
    (hcsv : ∀ line ∈ tableToCsvLines data, line ≠ [] ∧
      containsSub line ("ekpy_heading_complete".data) = false ∧
      ('\n' : Char) ∉ line)
    (hcols : data.cols ≠ []) (hccols : ∀ c ∈ data.cols, (',' : Char) ∉ c)
    (hrows : ∀ row ∈ data.rows, row ≠ [] ∧ ∀ c ∈ row, (',' : Char) ∉ c) :
    read_ekpy_data (write_ekpy_data data meta) true =
      Except.ok (data, some meta) := by
  have hw : write_ekpy_data data meta =
      ("ekpy_heading".data ::
        (meta.map (fun kv => kv.1 ++ ":::".data ++ kv.2) ++
          "ekpy_heading_complete".data :: tableToCsvLines data)).foldr
        (fun l acc => l ++ '\n' :: acc) [] := by
    unfold write_ekpy_data
    simp only []
    rw [List.cons_append, List.append_assoc, List.singleton_append]
  have hnl : ∀ l ∈ "ekpy_heading".data ::
      (meta.map (fun kv => kv.1 ++ ":::".data ++ kv.2) ++
        "ekpy_heading_complete".data :: tableToCsvLines data), ('\n' : Char) ∉ l := by
    intro l hl
    rcases List.mem_cons.mp hl with rfl | hl'
    · decide
    · rcases List.mem_append.mp hl' with hmm | hrest
      · obtain ⟨kv, hkv, rfl⟩ := List.mem_map.mp hmm
        obtain ⟨_, _, _, hnk, hnv, _, _⟩ := hmeta kv hkv
        intro hcm
        rcases List.mem_append.mp hcm with h1 | h2
        · rcases List.mem_append.mp h1 with ha | hb
          · exact hnk ha
          · rw [show (":::".data : Str) = [':', ':', ':'] from rfl] at hb
            simp at hb
        · exact hnv h2
      · rcases List.mem_cons.mp hrest with rfl | hcsvl
        · decide
        · exact (hcsv l hcsvl).2.2
  have hlines : splitLinesPy (write_ekpy_data data meta) =
      "ekpy_heading".data ::
        (meta.map (fun kv => kv.1 ++ ":::".data ++ kv.2) ++
          "ekpy_heading_complete".data :: tableToCsvLines data) := by
    rw [hw]
    exact splitLinesPy_render hnl
  have hmcp : ∀ l ∈ meta.map (fun kv => kv.1 ++ ":::".data ++ kv.2),
      containsSub l ("ekpy_heading_complete".data) = false := by
    intro l hl
    obtain ⟨kv, hkv, rfl⟩ := List.mem_map.mp hl
    obtain ⟨_, _, hhd, _, _, _, _⟩ := hmeta kv hkv
    rw [show ("ekpy_heading_complete".data : Str) =
      "ekpy_heading".data ++ "_complete".data from rfl]
    exact containsSub_not_of_not_sub hhd
  have hscan : scanIndex ("ekpy_heading".data ::
      (meta.map (fun kv => kv.1 ++ ":::".data ++ kv.2) ++
        "ekpy_heading_complete".data :: tableToCsvLines data)) =
      meta.length + 1 := by
    rw [scanIndex_header _ _ hmcp (fun l hl => (hcsv l hl).2.1), List.length_map]
  have hdropL : ("ekpy_heading".data ::
      (meta.map (fun kv => kv.1 ++ ":::".data ++ kv.2) ++
        "ekpy_heading_complete".data :: tableToCsvLines data)).drop
      (meta.length + 1 + 1) = tableToCsvLines data := by
    rw [List.drop_succ_cons,
      show meta.length + 1 =
        (meta.map (fun kv => kv.1 ++ ":::".data ++ kv.2)).length + 1 by
          rw [List.length_map],
      drop_append_len]
    rfl
  have hcsvok : readCsvLines (tableToCsvLines data) = Except.ok data :=
    readCsvLines_render data (fun l hl => (hcsv l hl).1) hcols hccols hrows
  have hparse : parse_ekpy_meta_data ("ekpy_heading".data ::
      (meta.map (fun kv => kv.1 ++ ":::".data ++ kv.2) ++
        "ekpy_heading_complete".data :: tableToCsvLines data)) =
      Except.ok meta := by
    unfold parse_ekpy_meta_data
    simp only [parseMetaAux]
    rw [if_neg (by decide), if_pos (by decide),
      parseMetaAux_walk _ _ (by decide) meta [] hmeta,
      foldl_dictUpdate_fresh meta hnodup [] (by simp)]
    rw [List.nil_append]
  unfold read_ekpy_data
  rw [hlines]
  simp only []
  rw [hscan]
  rw [if_neg (by
    simp only [List.length_cons, List.length_append, List.length_map,
      List.length_nil]
    omega)]
  rw [hdropL, hcsvok, hparse]
  rfl

/-- C4 (counterexample): the round trip is not exact for every metadata
mapping: a value containing the `:::` separator is truncated at parse time —
writing `{k: a:::b}` and reading back yields `{k: a}`. -/
theorem C4_counterexample :
    ¬ (read_ekpy_data (write_ekpy_data ⟨["c".data], [["1".data]]⟩
          [("k".data, "a:::b".data)]) true =
        Except.ok ((⟨["c".data], [["1".data]]⟩ : Table),
          some [("k".data, "a:::b".data)])) := by
  decide

/-- C4 witness: a concrete well-formed table and metadata mapping round-trip
exactly. -/
theorem C4_witness :
    ((([(("k".data : Str), "v".data)].map Prod.fst).Nodup ∧
      (∀ kv ∈ [(("k".data : Str), "v".data)], (':' : Char) ∉ kv.1 ∧
        containsSub kv.2 (":::".data) = false ∧
        containsSub (kv.1 ++ ":::".data ++ kv.2) ("ekpy_heading".data) = false ∧
        ('\n' : Char) ∉ kv.1 ∧ ('\n' : Char) ∉ kv.2 ∧
        ('\r' : Char) ∉ kv.1 ∧ ('\r' : Char) ∉ kv.2) ∧
      (∀ line ∈ tableToCsvLines ⟨["c".data], [["1".data]]⟩, line ≠ [] ∧
        containsSub line ("ekpy_heading_complete".data) = false ∧
        ('\n' : Char) ∉ line) ∧
      (Table.mk ["c".data] [["1".data]]).cols ≠ [] ∧
      (∀ c ∈ (Table.mk ["c".data] [["1".data]]).cols, (',' : Char) ∉ c) ∧
      (∀ row ∈ (Table.mk ["c".data] [["1".data]]).rows, row ≠ [] ∧
        ∀ c ∈ row, (',' : Char) ∉ c)) ∧
    (read_ekpy_data (write_ekpy_data ⟨["c".data], [["1".data]]⟩
        [("k".data, "v".data)]) true =
      Except.ok ((⟨["c".data], [["1".data]]⟩ : Table),
        some [("k".data, "v".data)]))) :=
  ⟨⟨by decide, by decide, by decide, by decide, by decide, by decide⟩,
    C4_write_read_round_trip ⟨["c".data], [["1".data]]⟩ [("k".data, "v".data)]
      (by decide) (by decide) (by decide) (by decide) (by decide) (by decide)⟩

/-- C6 (counterexample): a file whose first line lacks `ekpy_heading`, read
with `return_meta_data=True`, raises a `ValueError` instead of falling back
to plain CSV parsing — even though the plain parse (the default call) would
succeed on the very same file. -/
theorem C6_counterexample :
    (read_ekpy_data ("a,b\n1,2\n".data) true = Except.error ReadErr.noHeaderEnd) ∧
    (read_ekpy_data ("a,b\n1,2\n".data) false =
      Except.ok ((⟨["a".data, "b".data], [["1".data, "2".data]]⟩ : Table), none)) :=
  ⟨by decide, by decide⟩

/-- C6 (amended): for every input whose very first line does not contain the
`ekpy_heading` sentinel, `read_ekpy_data` with `return_meta_data=False` (the
default) falls back to a plain CSV parse of the whole file, while with
`return_meta_data=True` it raises a `ValueError` instead. -/
theorem C6_no_sentinel_fallback (s l0 : Str)
    (hhead : (splitLinesPy s).head? = some l0)
    (hno : containsSub l0 ("ekpy_heading".data) = false) :
    (read_ekpy_data s false =
        match readCsvLines (splitLinesPy s) with
        | Except.error e => Except.error e
        | Except.ok t => Except.ok (t, none)) ∧
    (read_ekpy_data s true = Except.error ReadErr.noHeaderEnd) := by
  obtain ⟨rest, hlines⟩ : ∃ rest, splitLinesPy s = l0 :: rest := by
    cases hl : splitLinesPy s with
    | nil =>
      rw [hl] at hhead
      cases hhead
    | cons a r =>
      rw [hl] at hhead
      simp only [List.head?_cons, Option.some.injEq] at hhead
      exact ⟨r, by rw [hhead]⟩
  have hscan : scanIndex (splitLinesPy s) = (splitLinesPy s).length + 1 := by
    rw [hlines]
    unfold scanIndex
    simp only [scanIndexAux]
    rw [if_pos (by rw [hno]; rfl)]
  constructor
  · unfold read_ekpy_data
    simp only []
    rw [hscan, if_pos (by omega)]
    rfl
  · unfold read_ekpy_data
    simp only []
    rw [hscan, if_pos (by omega)]
    rfl

/-- C6 witness: the concrete sentinel-less file `x,y\n3,4\n` is parsed as
plain CSV under the default call and rejected under `return_meta_data=True`. -/
theorem C6_witness :
    (((splitLinesPy ("x,y\n3,4\n".data)).head? = some ("x,y".data)) ∧
      containsSub ("x,y".data) ("ekpy_heading".data) = false) ∧
    ((read_ekpy_data ("x,y\n3,4\n".data) false =
        match readCsvLines (splitLinesPy ("x,y\n3,4\n".data)) with
        | Except.error e => Except.error e
        | Except.ok t => Except.ok (t, none)) ∧
      (read_ekpy_data ("x,y\n3,4\n".data) true = Except.error ReadErr.noHeaderEnd)) :=
  ⟨⟨by decide, by decide⟩,
    C6_no_sentinel_fallback ("x,y\n3,4\n".data) ("x,y".data) (by decide) (by decide)⟩
